import Mathlib

/-!
# downloader.go: range partitioning, range probe and the per-worker write loop

A shallow embedding of `src/main.go`.

* `int64` values are `Int`.  For `fileSize ≥ 0` and `workerCount ≥ 1` every
  intermediate value of the partition loop lies in `[-1, fileSize]`
  (`partitionLoop_bounds`), so no `int64` operation of the loop wraps there.
* HTTP, the response body stream and `File.WriteAt` are the environment: a
  transport function, a list of `Read` results and the result of each write.
* The progress bars are observational and are left out.
-/

set_option autoImplicit false

namespace Downloader

/-! ## The partition loop of `main` (lines 138-158) -/

/-- The loop `for num := int64(0); num < worker.Count; num++` of `main`.
It returns the arguments `(start, end-1)` of every
`go worker.writeRange(num, start, end-1)`, in launch order.  The first
argument bounds the number of iterations; `mainPartition` passes
`worker.Count` itself, which the loop never exceeds. -/
def partitionLoop (fileSize count partialSize : Int) : Nat → Int → Int → List (Int × Int)
  | 0, _, _ => []
  | fuel + 1, num, start =>
    if num < count then
      let end_ := if num = count then fileSize else start + partialSize
      (start, end_ - 1) :: partitionLoop fileSize count partialSize fuel (num + 1) end_
    else []

/-- Lines 138-158 of `main`: `partialSize = fileSize / workerCount` (Go's
truncated division, a run-time panic when the divisor is zero: `none`), then
the loop from `num = 0`, `start = 0`. -/
def mainPartition (fileSize workerCount : Int) : Option (List (Int × Int)) :=
  if workerCount = 0 then none
  else some (partitionLoop fileSize workerCount (Int.tdiv fileSize workerCount)
    workerCount.toNat 0 0)

/-- Line 95 of `getRangeBody`: `fmt.Sprintf("bytes=%d-%d", start, end)`. -/
def rangeHeader (start end_ : Int) : String :=
  "bytes=" ++ toString start ++ "-" ++ toString end_

/-- Byte offset `b` lies in the inclusive range `r = (start, end)`. -/
def inRange (r : Int × Int) (b : Int) : Prop := r.1 ≤ b ∧ b ≤ r.2

instance (r : Int × Int) (b : Int) : Decidable (inRange r b) := by
  unfold inRange; infer_instance

/-! ## HTTP environment -/

/-- Go's `http.Header`: canonical header name to its values; `h.lookup key`
is `h[key]` (`none` when the key is absent). -/
abbrev Header := List (String × List String)

/-- A byte. -/
abbrev Byte := Fin 256

/-- What one call `body.Read(buf)` returns: the bytes `buf[0:nr]` and
`er.Error()` when `er != nil`. -/
structure ReadResult where
  data : List Byte
  er : Option String
  deriving DecidableEq, Repr

/-- An HTTP response: its header and the successive results of reading its
body. -/
structure Response where
  header : Header
  body : List ReadResult
  deriving DecidableEq, Repr

/-- The result of `client.Do(req)` (or of a failing `http.NewRequest`) for a
GET of the URL, as a function of the value of the `Range` request header
(`none` for the probe, which sets no such header). -/
abbrev Transport := Option String → Except String Response

/-- Stands for `strconv.ParseInt(s, 10, 64)`: the value and the error, if any. -/
abbrev ParseInt := String → Int × Option String

/-! ## The range probe (lines 173-193) and its use in `main` (lines 114-118) -/

/-- The function `getSizeAndCheckRangeSupport`; the result is
`(size, supported, err)`, and `none` is the run-time panic of indexing an
absent (or empty) header value with `[0]`. -/
def getSizeAndCheckRangeSupport (parseInt : ParseInt) (transport : Transport) :
    Option (Int × Bool × Option String) :=
  match transport none with
  | .error e => some (0, false, some e)
  | .ok res =>
    match res.header.lookup "Content-Length" with
    | none => none
    | some [] => none
    | some (cl :: _) =>
      let parsed := parseInt cl
      match res.header.lookup "Accept-Ranges" with
      | none => some (parsed.1, true, parsed.2)
      | some [] => none
      | some (v :: _) =>
        if v ≠ "bytes" then
          some (0, false, some "Support `Accept-Ranges` but value is not `bytes`")
        else some (parsed.1, true, parsed.2)

/-- Lines 114-118 of `main`: the probe, `if !supported { *workerCount = 1 }`,
then `handleError(err)`.  The result is the file size and the worker count
the run goes on with, or the error that ends it; `none` is a panic. -/
def mainProbe (parseInt : ParseInt) (transport : Transport) (workerCount : Int) :
    Option (Except String (Int × Int)) :=
  match getSizeAndCheckRangeSupport parseInt transport with
  | none => none
  | some (fileSize, supported, err) =>
    let count := if !supported then 1 else workerCount
    match err with
    | some e => some (.error e)
    | none => some (.ok (fileSize, count))

/-! ## The output file -/

/-- The result of `w.File.WriteAt(buf[0:nr], start)` as a function of its
arguments: the count `nw` and the error, if any. -/
abbrev WriteAt := List Byte → Int → Int × Option String

/-- One call of `File.WriteAt`: the bytes passed, the offset, and the count
the call returned. -/
structure WriteCall where
  data : List Byte
  off : Int
  nw : Int
  deriving DecidableEq, Repr

/-- The content of a file after `d` is written at offset `off` (positional
write): the file grows to `off + d.length` if it was shorter, bytes never
written read as zero, and an empty write changes nothing. -/
def writeAt (f : List Byte) (off : Nat) (d : List Byte) : List Byte :=
  if d.isEmpty then f
  else (List.range (max f.length (off + d.length))).map fun i =>
    if off ≤ i ∧ i < off + d.length then d.getD (i - off) 0 else f.getD i 0

/-- The file after one `WriteAt` call that reported `nw` bytes written: the
first `nw` bytes of the data are in the file; a negative offset writes
nothing. -/
def applyCall (f : List Byte) (c : WriteCall) : List Byte :=
  if c.off < 0 then f else writeAt f c.off.toNat (c.data.take c.nw.toNat)

/-- The file after a sequence of `WriteAt` calls, applied in order. -/
def applyCalls (f : List Byte) (cs : List WriteCall) : List Byte :=
  cs.foldl applyCall f

/-- Line 128 of `main`, `os.OpenFile(filePath, os.O_CREATE|os.O_RDWR, ...)`:
the content of the output file when the workers start.  A file that exists
(`some content`) is opened as it is, since the flags do not include
`O_TRUNC`; a missing one (`none`) is created empty. -/
def openOutput (existing : Option (List Byte)) : List Byte :=
  match existing with
  | some content => content
  | none => []

/-! ## `Worker.getRangeBody` and `Worker.writeRange` (lines 38-102) -/

/-- How a call of `writeRange` ends. -/
inductive Outcome
  /-- Lines 41-43: `log.Fatalf("Part %d request error ...")`. -/
  | requestError (msg : String)
  /-- Lines 57-59: `WriteAt` returned an error, `log.Fatalf`. -/
  | writeError (msg : String)
  /-- Lines 60-62: `nr != nw`, `log.Fatalf("... short writing")`. -/
  | shortWrite
  /-- Lines 78-79 and 83: `"Downloaded successfully"`, `break`. -/
  | downloaded
  /-- Lines 80-82: `handleError(fmt.Errorf("Part %d unfinished", partNum))`. -/
  | unfinished
  /-- Line 85: a read error other than EOF, `handleError`. -/
  | readError (msg : String)
  /-- The run-time panic of `res.Header["Content-Length"][0]` on an absent header. -/
  | panicked
  /-- The loop is still running: every read supplied so far has been consumed. -/
  | reading
  deriving DecidableEq, Repr

/-- The local variables `start` and `written` of `writeRange`, and the
`WriteAt` calls issued so far, oldest first. -/
structure WorkerState where
  start : Int
  written : Int
  calls : List WriteCall
  deriving DecidableEq, Repr

/-- The function `getRangeBody`: the body, the parsed `Content-Length` and
the error; `none` is the panic on an absent `Content-Length`. -/
def getRangeBody (parseInt : ParseInt) (transport : Transport) (start end_ : Int) :
    Option (List ReadResult × Int × Option String) :=
  match transport (some (rangeHeader start end_)) with
  | .error e => some ([], 0, some e)
  | .ok res =>
    match res.header.lookup "Content-Length" with
    | some (cl :: _) => some (res.body, (parseInt cl).1, (parseInt cl).2)
    | _ => none

/-- Lines 56-66, the body of `if nr > 0`: the write, its two fatal checks,
and the updates of `start` and `written`. -/
def writeChunk (wr : WriteAt) (data : List Byte) (st : WorkerState) :
    Except (WorkerState × Outcome) WorkerState :=
  let nw := (wr data st.start).1
  let logged := st.calls ++ [{ data := data, off := st.start, nw := nw }]
  match (wr data st.start).2 with
  | some e => .error ({ st with calls := logged }, .writeError e)
  | none =>
    if (data.length : Int) ≠ nw then .error ({ st with calls := logged }, .shortWrite)
    else .ok { start := st.start + nw,
               written := if nw > 0 then st.written + nw else st.written,
               calls := logged }

/-- Lines 76-86, `if er != nil`: the outcome that ends the loop, if any.
`handleError` does not return when given an error. -/
def checkRead (size : Int) (er : Option String) (st : WorkerState) : Option Outcome :=
  match er with
  | none => none
  | some msg =>
    if msg = "EOF" then
      if size = st.written then some .downloaded else some .unfinished
    else some (.readError msg)

/-- The `for` loop of `writeRange` (lines 53-87) over the successive results
of `body.Read`. -/
def writeLoop (wr : WriteAt) (size : Int) : List ReadResult → WorkerState → WorkerState × Outcome
  | [], st => (st, .reading)
  | rd :: rest, st =>
    match (if (rd.data.length : Int) > 0 then writeChunk wr rd.data st else .ok st) with
    | .error r => r
    | .ok st1 =>
      match checkRead size rd.er st1 with
      | some o => (st1, o)
      | none => writeLoop wr size rest st1

/-- The function `writeRange` for the range `[start, end_]`. -/
def writeRange (parseInt : ParseInt) (transport : Transport) (wr : WriteAt)
    (start end_ : Int) : WorkerState × Outcome :=
  match getRangeBody parseInt transport start end_ with
  | none => ({ start := start, written := 0, calls := [] }, .panicked)
  | some (body, size, err) =>
    match err with
    | some e => ({ start := start, written := 0, calls := [] }, .requestError e)
    | none => writeLoop wr size body { start := start, written := 0, calls := [] }

/-- Lines 138-161 of `main`: one `writeRange` per range of the partition;
the result lists what each worker did, in launch order (`none`: the
division panicked). -/
def mainDownload (parseInt : ParseInt) (transport : Transport) (wr : WriteAt)
    (fileSize workerCount : Int) : Option (List (WorkerState × Outcome)) :=
  match mainPartition fileSize workerCount with
  | none => none
  | some ranges => some (ranges.map fun r => writeRange parseInt transport wr r.1 r.2)

/-! ## Vocabulary of the statements -/

/-- Total number of bytes a list of reads delivers. -/
def bytesOf (body : List ReadResult) : Nat := (body.map fun r => r.data.length).sum

/-- The bytes a list of reads delivers, in stream order. -/
def streamOf (body : List ReadResult) : List Byte := (body.map fun r => r.data).flatten

/-- Every write is complete: `WriteAt` reports all the bytes it was given and
no error. -/
def CompleteWrites (wr : WriteAt) : Prop := ∀ d off, wr d off = ((d.length : Int), none)

/-- The body delivers exactly `bytes` and then ends: no read before the last
one reports an error and the last one reports `EOF`. -/
def delivers (body : List ReadResult) (bytes : List Byte) : Bool :=
  decide (streamOf body = bytes) && body.dropLast.all (fun r => r.er.isNone) &&
    decide (body.getLast?.map (fun r => r.er) = some (some "EOF"))

/-- The bytes `start..end_` of a resource. -/
def slice (res : List Byte) (start end_ : Int) : List Byte :=
  (res.drop start.toNat).take (end_ - start + 1).toNat

/-- The server answers the range request `[r.1, r.2]` with exactly those
bytes of `res` and declares their count as the content length. -/
def ServesRange (parseInt : ParseInt) (transport : Transport) (res : List Byte)
    (r : Int × Int) : Prop :=
  ∃ resp cl more, transport (some (rangeHeader r.1 r.2)) = .ok resp ∧
    resp.header.lookup "Content-Length" = some (cl :: more) ∧
    parseInt cl = (r.2 - r.1 + 1, none) ∧
    delivers resp.body (slice res r.1 r.2) = true

/-- The `WriteAt` calls that complete writes produce for the chunks `ds`
read in this order, the first one at offset `start`: every non-empty chunk is
written in full right after the chunks before it (an empty read writes nothing). -/
def callsFrom (start : Int) : List (List Byte) → List WriteCall
  | [] => []
  | d :: ds =>
    if d.isEmpty then callsFrom start ds
    else { data := d, off := start, nw := d.length } :: callsFrom (start + d.length) ds

/-- The worker state after the reads `body` have been consumed with complete
writes. -/
def advance (st : WorkerState) (body : List ReadResult) : WorkerState :=
  { start := st.start + bytesOf body,
    written := st.written + bytesOf body,
    calls := st.calls ++ callsFrom st.start (body.map fun r => r.data) }

/-- Every write the loop issues for the reads `body`, the chunk of each read
at offset `start` plus the number of bytes read before it, returns no error
and reports all the bytes of the chunk. -/
def writesComplete (wr : WriteAt) : Int → List ReadResult → Prop
  | _, [] => True
  | start, r :: rest =>
    (r.data ≠ [] → wr r.data start = ((r.data.length : Int), none)) ∧
      writesComplete wr (start + r.data.length) rest

/-- Offset `i` of the file lies in the window `[off, off + len)` of the call. -/
def touches (c : WriteCall) (i : Nat) : Prop :=
  c.off ≤ (i : Int) ∧ (i : Int) < c.off + c.data.length

instance (c : WriteCall) (i : Nat) : Decidable (touches c i) := by
  unfold touches; infer_instance

/-- The call writes, in full, bytes of `bytes` at the place they have when
`bytes` starts at offset `base` of the file. -/
def Agrees (base : Nat) (bytes : List Byte) (c : WriteCall) : Prop :=
  ∃ j : Nat, c.off = (base : Int) + j ∧ c.nw = c.data.length ∧
    ∀ k : Nat, k < c.data.length → c.data[k]? = bytes[j + k]?

/-! ## Sample inputs -/

/-- A file whose writes are always complete. -/
def wrComplete : WriteAt := fun d _ => ((d.length : Int), none)

/-- A file whose write at offset 2 stores one byte less than it is given. -/
def wrShortAt2 : WriteAt := fun d off =>
  if off = 2 then ((d.length : Int) - 1, none) else ((d.length : Int), none)

/-- A read of the two bytes `[1, 2]` without error. -/
def samplePre : List ReadResult := [{ data := [1, 2], er := none }]

/-- A read of the byte `[3]` together with `EOF`. -/
def sampleLast : ReadResult := { data := [3], er := some "EOF" }

/-- A body of three bytes read as `[1, 2]`, then `[3]` together with `EOF`. -/
def sampleBody : List ReadResult := samplePre ++ sampleLast :: []

/-- A `ParseInt` that reads the strings `"3"`, `"250"` and `"1000"`. -/
def parseSample : ParseInt := fun s =>
  if s = "3" then (3, none)
  else if s = "250" then (250, none)
  else if s = "1000" then (1000, none)
  else (0, some "invalid syntax")

/-- A server that answers every request with the three bytes of `sampleBody`,
whatever range is asked for. -/
def threeByteTransport : Transport := fun _ =>
  .ok { header := [("Content-Length", ["3"])], body := sampleBody }

/-- A probe response of 1000 bytes with no `Accept-Ranges` header. -/
def probeResponse : Response := { header := [("Content-Length", ["1000"])], body := [] }

/-- A server that answers the probe with `probeResponse`. -/
def probeTransport : Transport := fun _ => .ok probeResponse

/-- A resource of 1000 bytes, byte `i` being `i mod 256`. -/
def sampleResource : List Byte := (List.range 1000).map fun i => Fin.ofNat i

/-- A server for the four ranges of a 1000-byte resource `res`: it answers each
of them with exactly its bytes, delivered in two reads (100 bytes, then the
rest together with `EOF`), and declares 250 bytes. -/
def rangeServer (res : List Byte) : Transport := fun h =>
  match [((0 : Int), (249 : Int)), (250, 499), (500, 749), (750, 999)].find?
      (fun r => h = some (rangeHeader r.1 r.2)) with
  | some r =>
    .ok { header := [("Content-Length", ["250"])],
          body := [{ data := (slice res r.1 r.2).take 100, er := none },
                   { data := (slice res r.1 r.2).drop 100, er := some "EOF" }] }
  | none => .error "unexpected request"

/-! ### Closed form of the loop -/

theorem partitionLoop_closed (fileSize count partialSize : Int) :
    ∀ (fuel : Nat) (num start : Int), num + fuel ≤ count →
      partitionLoop fileSize count partialSize fuel num start =
        (List.range fuel).map
          (fun (k : Nat) => (start + (k : Int) * partialSize, start + ((k : Int) + 1) * partialSize - 1)) := by
  intro fuel
  induction fuel with
  | zero => intro num start _; rfl
  | succ n ih =>
    intro num start h
    have hlt : num < count := by push_cast at h; omega
    have hne : num ≠ count := by omega
    have h2 : num + 1 + (n : Int) ≤ count := by push_cast at h; omega
    simp only [partitionLoop, hlt, hne, if_true, if_false]
    rw [ih (num + 1) (start + partialSize) h2, List.range_succ_eq_map, List.map_cons,
      List.map_map]
    congr 1
    · simp
    · apply List.map_congr_left
      intro k _
      simp only [Function.comp, Nat.succ_eq_add_one]
      push_cast
      refine Prod.ext ?_ ?_ <;> (simp only []; ring)

theorem mainPartition_closed (fileSize workerCount : Int) (hw : 1 ≤ workerCount) :
    mainPartition fileSize workerCount =
      some ((List.range workerCount.toNat).map
        (fun (k : Nat) => ((k : Int) * Int.tdiv fileSize workerCount,
          ((k : Int) + 1) * Int.tdiv fileSize workerCount - 1))) := by
  have h0 : workerCount ≠ 0 := by omega
  have hfuel : (0 : Int) + (workerCount.toNat : Int) ≤ workerCount := by
    rw [Int.toNat_of_nonneg (by omega)]; omega
  simp only [mainPartition, h0, if_false]
  rw [partitionLoop_closed _ _ _ _ _ _ hfuel]
  simp

/-! ### Facts about the partition used by several statements -/

theorem mem_mainPartition (fileSize workerCount : Int) (hw : 1 ≤ workerCount)
    (ranges : List (Int × Int)) (h : mainPartition fileSize workerCount = some ranges)
    (r : Int × Int) :
    r ∈ ranges ↔ ∃ k : Nat, (k : Int) < workerCount ∧
      r = ((k : Int) * Int.tdiv fileSize workerCount,
        ((k : Int) + 1) * Int.tdiv fileSize workerCount - 1) := by
  rw [mainPartition_closed fileSize workerCount hw] at h
  cases Option.some.inj h
  simp only [List.mem_map, List.mem_range]
  constructor
  · rintro ⟨k, hk, rfl⟩
    exact ⟨k, by omega, rfl⟩
  · rintro ⟨k, hk, rfl⟩
    exact ⟨k, by omega, rfl⟩

theorem getElem?_mainPartition (fileSize workerCount : Int) (hw : 1 ≤ workerCount)
    (ranges : List (Int × Int)) (h : mainPartition fileSize workerCount = some ranges)
    (i : Nat) (r : Int × Int) (hr : ranges[i]? = some r) :
    (i : Int) < workerCount ∧
      r = ((i : Int) * Int.tdiv fileSize workerCount,
        ((i : Int) + 1) * Int.tdiv fileSize workerCount - 1) := by
  rw [mainPartition_closed fileSize workerCount hw] at h
  cases Option.some.inj h
  rw [List.getElem?_map] at hr
  by_cases hi : i < workerCount.toNat
  · rw [List.getElem?_range hi] at hr
    simp only [Option.map_some'] at hr
    exact ⟨by omega, (Option.some.inj hr).symm⟩
  · rw [List.getElem?_eq_none (by simpa using hi)] at hr
    simp at hr

/-- For `fileSize ≥ 0` and `workerCount ≥ 1` every `start` and `end-1` that
the loop computes lies in `[-1, fileSize]`: the `int64` arithmetic of the loop
does not wrap. -/
theorem partitionLoop_bounds (fileSize workerCount : Int) (ht : 0 ≤ fileSize)
    (hw : 1 ≤ workerCount) (ranges : List (Int × Int))
    (h : mainPartition fileSize workerCount = some ranges) (r : Int × Int) (hr : r ∈ ranges) :
    0 ≤ r.1 ∧ r.1 ≤ fileSize ∧ -1 ≤ r.2 ∧ r.2 < fileSize := by
  obtain ⟨k, hk, rfl⟩ := (mem_mainPartition fileSize workerCount hw ranges h r).1 hr
  rw [Int.tdiv_eq_ediv ht (by omega)]
  have hc : 0 ≤ fileSize / workerCount := Int.ediv_nonneg ht (by omega)
  have hk0 : (0 : Int) ≤ k := Int.ofNat_nonneg k
  have hmul : workerCount * (fileSize / workerCount) ≤ fileSize :=
    Int.mul_ediv_self_le (by omega)
  have h1 : ((k : Int) + 1) * (fileSize / workerCount) ≤ workerCount * (fileSize / workerCount) :=
    Int.mul_le_mul_of_nonneg_right (by omega) hc
  have h2 : 0 ≤ (k : Int) * (fileSize / workerCount) := Int.mul_nonneg hk0 hc
  have h3 : ((k : Int) + 1) * (fileSize / workerCount)
      = (k : Int) * (fileSize / workerCount) + fileSize / workerCount := by ring
  simp only
  refine ⟨h2, ?_, ?_, ?_⟩ <;> omega

/-! ## The partition: what the loop produces -/

/-- Claim C10: for `totalSize ≥ 0` and `workerCount ≥ 1` the partition loop
produces exactly `workerCount` ranges; range `i` is
`[i*chunk, (i+1)*chunk - 1]` with `chunk = totalSize / workerCount`, so each
range, the last included, has exactly `chunk` bytes; the branch
`num == worker.Count` is never taken (the result does not depend on the value
it would assign); the ranges cover exactly the `workerCount * chunk` bytes
`[0, workerCount*chunk - 1]`, and the trailing `totalSize mod workerCount`
bytes lie in no range. -/
theorem C10_partition_equal_chunks (totalSize workerCount : Int)
    (ht : 0 ≤ totalSize) (hw : 1 ≤ workerCount) :
    ∃ ranges, mainPartition totalSize workerCount = some ranges ∧
      (ranges.length : Int) = workerCount ∧
      (∀ (i : Nat) (r : Int × Int), ranges[i]? = some r →
        r = ((i : Int) * (totalSize / workerCount),
          ((i : Int) + 1) * (totalSize / workerCount) - 1)) ∧
      (∀ r ∈ ranges, r.2 - r.1 + 1 = totalSize / workerCount) ∧
      (∀ other : Int, partitionLoop other workerCount (Int.tdiv totalSize workerCount)
        workerCount.toNat 0 0 = ranges) ∧
      (∀ b : Int, (∃ r ∈ ranges, inRange r b) ↔
        0 ≤ b ∧ b < workerCount * (totalSize / workerCount)) ∧
      workerCount * (totalSize / workerCount) + totalSize % workerCount = totalSize ∧
      (∀ b : Int, workerCount * (totalSize / workerCount) ≤ b → b < totalSize →
        ∀ r ∈ ranges, ¬ inRange r b) := by
  have hclosed := mainPartition_closed totalSize workerCount hw
  have hdiv : Int.tdiv totalSize workerCount = totalSize / workerCount :=
    Int.tdiv_eq_ediv ht (by omega)
  have hc : 0 ≤ totalSize / workerCount := Int.ediv_nonneg ht (by omega)
  refine ⟨_, hclosed, ?_, ?_, ?_, ?_, ?_, ?_, ?_⟩
  · simp only [List.length_map, List.length_range]
    exact Int.toNat_of_nonneg (by omega)
  · intro i r hr
    rw [← hdiv]
    exact (getElem?_mainPartition totalSize workerCount hw _ hclosed i r hr).2
  · intro r hr
    obtain ⟨k, _, rfl⟩ := (mem_mainPartition totalSize workerCount hw _ hclosed r).1 hr
    rw [hdiv]; simp only; ring
  · intro other
    have hfuel : (0 : Int) + (workerCount.toNat : Int) ≤ workerCount := by
      rw [Int.toNat_of_nonneg (by omega)]; omega
    rw [partitionLoop_closed _ _ _ _ _ _ hfuel]
    simp
  · intro b
    constructor
    · rintro ⟨r, hr, hb1, hb2⟩
      obtain ⟨k, hk, rfl⟩ := (mem_mainPartition totalSize workerCount hw _ hclosed r).1 hr
      rw [hdiv] at hb1 hb2
      simp only at hb1 hb2
      have h1 : ((k : Int) + 1) * (totalSize / workerCount)
          ≤ workerCount * (totalSize / workerCount) :=
        Int.mul_le_mul_of_nonneg_right (by omega) hc
      have h2 : 0 ≤ (k : Int) * (totalSize / workerCount) :=
        Int.mul_nonneg (Int.ofNat_nonneg k) hc
      constructor <;> omega
    · rintro ⟨hb0, hb⟩
      have hcpos : 0 < totalSize / workerCount := by
        rcases lt_or_eq_of_le hc with h | h
        · exact h
        · rw [← h] at hb; simp at hb; omega
      have hk0 : 0 ≤ b / (totalSize / workerCount) := Int.ediv_nonneg hb0 hc
      have hklt : b / (totalSize / workerCount) < workerCount :=
        Int.ediv_lt_of_lt_mul hcpos hb
      refine ⟨((b / (totalSize / workerCount)).toNat * (totalSize / workerCount),
        (((b / (totalSize / workerCount)).toNat : Int) + 1) * (totalSize / workerCount) - 1),
        ?_, ?_, ?_⟩
      · rw [mem_mainPartition totalSize workerCount hw _ hclosed]
        refine ⟨(b / (totalSize / workerCount)).toNat, ?_, by rw [hdiv]⟩
        rw [Int.toNat_of_nonneg hk0]; exact hklt
      · simp only [Int.toNat_of_nonneg hk0]
        exact Int.ediv_mul_le b (by omega)
      · simp only [Int.toNat_of_nonneg hk0]
        have := Int.lt_ediv_add_one_mul_self b hcpos
        omega
  · have := Int.emod_add_ediv totalSize workerCount
    omega
  · intro b hb1 _ r hr hin
    obtain ⟨k, hk, rfl⟩ := (mem_mainPartition totalSize workerCount hw _ hclosed r).1 hr
    rw [hdiv] at hin
    have h1 : ((k : Int) + 1) * (totalSize / workerCount)
        ≤ workerCount * (totalSize / workerCount) :=
      Int.mul_le_mul_of_nonneg_right (by omega) hc
    have h2 := hin.2
    simp only at h2
    omega

/-- Witness of C10 at `totalSize = 1001`, `workerCount = 4`. -/
theorem C10_partition_equal_chunks_witness :
    ∃ ranges, mainPartition 1001 4 = some ranges ∧
      (ranges.length : Int) = 4 ∧
      (∀ (i : Nat) (r : Int × Int), ranges[i]? = some r →
        r = ((i : Int) * (1001 / 4), ((i : Int) + 1) * (1001 / 4) - 1)) ∧
      (∀ r ∈ ranges, r.2 - r.1 + 1 = 1001 / 4) ∧
      (∀ other : Int, partitionLoop other 4 (Int.tdiv 1001 4) (4 : Int).toNat 0 0 = ranges) ∧
      (∀ b : Int, (∃ r ∈ ranges, inRange r b) ↔ 0 ≤ b ∧ b < 4 * (1001 / 4)) ∧
      4 * (1001 / 4) + 1001 % 4 = (1001 : Int) ∧
      (∀ b : Int, 4 * (1001 / 4) ≤ b → b < 1001 → ∀ r ∈ ranges, ¬ inRange r b) :=
  C10_partition_equal_chunks 1001 4 (by decide) (by decide)

/-- Claim C2: for `totalSize ≥ 0` and `workerCount ≥ 1` the ranges of the
partition loop are ordered by start offset, each range after the first starts
at the byte right after the end of the one before it, and the ranges are
pairwise disjoint (an earlier range ends before a later one starts, so no
byte lies in both). -/
theorem C2_partition_disjoint_ordered (totalSize workerCount : Int)
    (ht : 0 ≤ totalSize) (hw : 1 ≤ workerCount) :
    ∃ ranges, mainPartition totalSize workerCount = some ranges ∧
      (∀ (i : Nat) (r r2 : Int × Int), ranges[i]? = some r → ranges[i + 1]? = some r2 →
        r2.1 = r.2 + 1) ∧
      (∀ (i j : Nat) (r r2 : Int × Int), i < j → ranges[i]? = some r → ranges[j]? = some r2 →
        r.1 ≤ r2.1 ∧ r.2 < r2.1) ∧
      (∀ (i j : Nat) (r r2 : Int × Int), i ≠ j → ranges[i]? = some r → ranges[j]? = some r2 →
        ∀ b : Int, ¬ (inRange r b ∧ inRange r2 b)) := by
  have hclosed := mainPartition_closed totalSize workerCount hw
  have hc : 0 ≤ Int.tdiv totalSize workerCount := by
    rw [Int.tdiv_eq_ediv ht (by omega)]; exact Int.ediv_nonneg ht (by omega)
  have key : ∀ (i j : Nat) (r r2 : Int × Int), i < j →
      (List.map (fun (k : Nat) => ((k : Int) * Int.tdiv totalSize workerCount,
        ((k : Int) + 1) * Int.tdiv totalSize workerCount - 1))
        (List.range workerCount.toNat))[i]? = some r →
      (List.map (fun (k : Nat) => ((k : Int) * Int.tdiv totalSize workerCount,
        ((k : Int) + 1) * Int.tdiv totalSize workerCount - 1))
        (List.range workerCount.toNat))[j]? = some r2 →
      r.1 ≤ r2.1 ∧ r.2 < r2.1 := by
    intro i j r r2 hij hr hr2
    obtain ⟨_, rfl⟩ := getElem?_mainPartition totalSize workerCount hw _ hclosed i r hr
    obtain ⟨_, rfl⟩ := getElem?_mainPartition totalSize workerCount hw _ hclosed j r2 hr2
    have h1 : ((i : Int) + 1) * Int.tdiv totalSize workerCount
        ≤ (j : Int) * Int.tdiv totalSize workerCount :=
      Int.mul_le_mul_of_nonneg_right (by omega) hc
    have h2 : ((i : Int) + 1) * Int.tdiv totalSize workerCount
        = (i : Int) * Int.tdiv totalSize workerCount + Int.tdiv totalSize workerCount := by ring
    simp only
    constructor <;> omega
  refine ⟨_, hclosed, ?_, key, ?_⟩
  · intro i r r2 hr hr2
    obtain ⟨_, rfl⟩ := getElem?_mainPartition totalSize workerCount hw _ hclosed i r hr
    obtain ⟨_, rfl⟩ := getElem?_mainPartition totalSize workerCount hw _ hclosed (i + 1) r2 hr2
    simp only; push_cast; ring
  · intro i j r r2 hij hr hr2 b hb
    obtain ⟨⟨hb1, hb2⟩, ⟨hb3, hb4⟩⟩ := hb
    rcases Nat.lt_or_gt_of_ne hij with h | h
    · have := (key i j r r2 h hr hr2).2; omega
    · have := (key j i r2 r h hr2 hr).2; omega

/-- Witness of C2 at `totalSize = 1000`, `workerCount = 4`. -/
theorem C2_partition_disjoint_ordered_witness :
    ∃ ranges, mainPartition 1000 4 = some ranges ∧
      (∀ (i : Nat) (r r2 : Int × Int), ranges[i]? = some r → ranges[i + 1]? = some r2 →
        r2.1 = r.2 + 1) ∧
      (∀ (i j : Nat) (r r2 : Int × Int), i < j → ranges[i]? = some r → ranges[j]? = some r2 →
        r.1 ≤ r2.1 ∧ r.2 < r2.1) ∧
      (∀ (i j : Nat) (r r2 : Int × Int), i ≠ j → ranges[i]? = some r → ranges[j]? = some r2 →
        ∀ b : Int, ¬ (inRange r b ∧ inRange r2 b)) :=
  C2_partition_disjoint_ordered 1000 4 (by decide) (by decide)

/-- Claim C1, the code at `totalSize = 1001`, `workerCount = 4`: the loop hands
out `[0,249],[250,499],[500,749],[750,999]`; the last range ends at 999, not at
`totalSize - 1 = 1000`, and byte 1000 lies in no range. -/
theorem C1_last_range_drops_remainder :
    mainPartition 1001 4 = some [(0, 249), (250, 499), (500, 749), (750, 999)] ∧
      (∀ r ∈ [((0 : Int), (249 : Int)), (250, 499), (500, 749), (750, 999)],
        ¬ inRange r 1000) := by
  decide

/-- Claim C8, the code at `totalSize = 3`, `workerCount = 4`: every worker is
given the inverted range `[0, -1]`, for which `getRangeBody` sends the header
value `bytes=0--1`. -/
theorem C8_inverted_range_small_file :
    mainPartition 3 4 = some [(0, -1), (0, -1), (0, -1), (0, -1)] ∧
      (∀ r ∈ [((0 : Int), (-1 : Int)), (0, -1), (0, -1), (0, -1)], ¬ r.1 ≤ r.2) ∧
      rangeHeader 0 (-1) = "bytes=0--1" := by
  decide

/-- When the chunk is not empty (`totalSize ≥ workerCount ≥ 1`) every range of
the partition has `start ≤ end`. -/
theorem partition_start_le_end (totalSize workerCount : Int) (hw : 1 ≤ workerCount)
    (ht : workerCount ≤ totalSize) (ranges : List (Int × Int))
    (h : mainPartition totalSize workerCount = some ranges) :
    ∀ r ∈ ranges, r.1 ≤ r.2 := by
  intro r hr
  obtain ⟨k, _, rfl⟩ := (mem_mainPartition totalSize workerCount hw ranges h r).1 hr
  have hc : 1 ≤ Int.tdiv totalSize workerCount := by
    rw [Int.tdiv_eq_ediv (by omega) (by omega)]
    exact (Int.le_ediv_iff_mul_le (by omega)).2 (by omega)
  have h3 : ((k : Int) + 1) * Int.tdiv totalSize workerCount
      = (k : Int) * Int.tdiv totalSize workerCount + Int.tdiv totalSize workerCount := by ring
  simp only
  omega

/-- Claim C9 fails at `totalSize = -8`, `workerCount = 4` and at
`totalSize = 10`, `workerCount = -1`: a negative size is not rejected (four
workers are launched), and a negative worker count raises no error (the loop
just launches nothing). -/
theorem C9_invalid_input_not_rejected :
    ((-8 : Int) < 0 ∧
      mainPartition (-8) 4 = some [(0, -3), (-2, -5), (-4, -7), (-6, -9)]) ∧
    ((-1 : Int) < 1 ∧ mainPartition 10 (-1) = some []) := by
  decide

/-- Claim C9 as amended: the partitioning step validates neither argument.
For every `totalSize` and every `workerCount ≠ 0` it raises no error and
launches exactly `max workerCount 0` workers (none when `workerCount < 0`);
only `workerCount = 0` stops it, by the panic of the division
`totalSize / workerCount`. -/
theorem C9_partition_validates_nothing (totalSize workerCount : Int) :
    (workerCount = 0 ∧ mainPartition totalSize workerCount = none) ∨
    (workerCount ≠ 0 ∧ ∃ ranges, mainPartition totalSize workerCount = some ranges ∧
      ranges.length = workerCount.toNat) := by
  by_cases h0 : workerCount = 0
  · left
    exact ⟨h0, by simp [mainPartition, h0]⟩
  · right
    refine ⟨h0, ?_⟩
    by_cases hw : 1 ≤ workerCount
    · exact ⟨_, mainPartition_closed totalSize workerCount hw, by simp⟩
    · have hz : workerCount.toNat = 0 := by omega
      refine ⟨[], ?_, by simp [hz]⟩
      simp [mainPartition, h0, hz, partitionLoop]

/-! ## The range probe -/

/-- Claim C6: for a probe response whose `Content-Length` parses as the
integer `n`, `getSizeAndCheckRangeSupport` returns `(n, true, nil)` when
`Accept-Ranges` is absent or its first value is `"bytes"`, and returns an
error with `supported = false` when `Accept-Ranges` is present with another
first value; when the header is absent `main` goes on with the worker count as
requested. -/
theorem C6_probe_range_support (parseInt : ParseInt) (transport : Transport)
    (resp : Response) (cl : String) (more : List String) (n workerCount : Int)
    (hresp : transport none = .ok resp)
    (hcl : resp.header.lookup "Content-Length" = some (cl :: more))
    (hparse : parseInt cl = (n, none)) :
    ((resp.header.lookup "Accept-Ranges" = none ∨
        ∃ vs, resp.header.lookup "Accept-Ranges" = some ("bytes" :: vs)) →
      getSizeAndCheckRangeSupport parseInt transport = some (n, true, none)) ∧
    (∀ v vs, resp.header.lookup "Accept-Ranges" = some (v :: vs) → v ≠ "bytes" →
      ∃ size e, getSizeAndCheckRangeSupport parseInt transport = some (size, false, some e)) ∧
    (resp.header.lookup "Accept-Ranges" = none →
      mainProbe parseInt transport workerCount = some (.ok (n, workerCount))) := by
  refine ⟨?_, ?_, ?_⟩
  · rintro (h | ⟨vs, h⟩) <;>
      simp [getSizeAndCheckRangeSupport, hresp, hcl, hparse, h]
  · intro v vs h hv
    refine ⟨0, "Support `Accept-Ranges` but value is not `bytes`", ?_⟩
    simp [getSizeAndCheckRangeSupport, hresp, hcl, h, hv]
  · intro h
    simp [mainProbe, getSizeAndCheckRangeSupport, hresp, hcl, hparse, h]

/-- Witness of C6: a probe response with `Content-Length: 1000` and no
`Accept-Ranges`, eight workers requested. -/
theorem C6_probe_range_support_witness :
    ((probeResponse.header.lookup "Accept-Ranges" = none ∨
        ∃ vs, probeResponse.header.lookup "Accept-Ranges" = some ("bytes" :: vs)) →
      getSizeAndCheckRangeSupport parseSample probeTransport = some (1000, true, none)) ∧
    (∀ v vs, probeResponse.header.lookup "Accept-Ranges" = some (v :: vs) → v ≠ "bytes" →
      ∃ size e, getSizeAndCheckRangeSupport parseSample probeTransport
        = some (size, false, some e)) ∧
    (probeResponse.header.lookup "Accept-Ranges" = none →
      mainProbe parseSample probeTransport 8 = some (.ok (1000, 8))) :=
  C6_probe_range_support parseSample probeTransport probeResponse "1000" [] 1000 8
    rfl (by decide) (by decide)

/-! ## The file: positional writes -/

theorem length_le_writeAt (f : List Byte) (off : Nat) (d : List Byte) :
    f.length ≤ (writeAt f off d).length := by
  unfold writeAt
  split
  · exact Nat.le_refl _
  · simp

theorem length_writeAt_le (f : List Byte) (off : Nat) (d : List Byte) :
    (writeAt f off d).length ≤ max f.length (off + d.length) := by
  unfold writeAt
  split
  · exact Nat.le_max_left _ _
  · simp

theorem getElem?_writeAt_inside (f : List Byte) (off : Nat) (d : List Byte) (i : Nat)
    (h1 : off ≤ i) (h2 : i < off + d.length) :
    (writeAt f off d)[i]? = d[i - off]? := by
  have hd : d.isEmpty = false := by
    cases d with
    | nil => simp at h2; omega
    | cons a t => rfl
  have hi : i < max f.length (off + d.length) := lt_max_of_lt_right h2
  have hk : i - off < d.length := by omega
  simp only [writeAt, hd, Bool.false_eq_true, if_false, List.getElem?_map,
    List.getElem?_range hi, Option.map_some', h1, h2, and_self, if_true]
  rw [List.getElem?_eq_getElem hk, List.getD_eq_getElem d 0 hk]

theorem getElem?_writeAt_outside (f : List Byte) (off : Nat) (d : List Byte) (i : Nat)
    (hi : i < f.length) (h : i < off ∨ off + d.length ≤ i) :
    (writeAt f off d)[i]? = f[i]? := by
  unfold writeAt
  split
  · rfl
  · have hi2 : i < max f.length (off + d.length) := lt_max_of_lt_left hi
    have hnot : ¬ (off ≤ i ∧ i < off + d.length) := by omega
    simp only [List.getElem?_map, List.getElem?_range hi2, Option.map_some', hnot, if_false]
    rw [List.getElem?_eq_getElem hi, List.getD_eq_getElem f 0 hi]

theorem length_le_applyCall (f : List Byte) (c : WriteCall) :
    f.length ≤ (applyCall f c).length := by
  unfold applyCall
  split
  · exact Nat.le_refl _
  · exact length_le_writeAt _ _ _

theorem getElem?_applyCall_outside (f : List Byte) (c : WriteCall) (i : Nat)
    (hi : i < f.length) (h : ¬ touches c i) : (applyCall f c)[i]? = f[i]? := by
  unfold applyCall
  split
  · rfl
  · rename_i hoff
    apply getElem?_writeAt_outside _ _ _ _ hi
    have hlen : (c.data.take c.nw.toNat).length ≤ c.data.length := by
      simp [List.length_take]
    unfold touches at h
    omega

theorem getElem?_applyCalls_outside (cs : List WriteCall) :
    ∀ (f : List Byte) (i : Nat), i < f.length → (∀ c ∈ cs, ¬ touches c i) →
      (applyCalls f cs)[i]? = f[i]? := by
  induction cs with
  | nil => intro f i _ _; rfl
  | cons c cs ih =>
    intro f i hi h
    have h1 := getElem?_applyCall_outside f c i hi (h c (List.mem_cons_self _ _))
    have h2 := ih (applyCall f c) i (Nat.lt_of_lt_of_le hi (length_le_applyCall f c))
      (fun c2 hc2 => h c2 (List.mem_cons_of_mem _ hc2))
    simp only [applyCalls, List.foldl_cons] at h2 ⊢
    rw [h2, h1]

theorem getElem?_applyCall_agrees (base : Nat) (bytes : List Byte) (f : List Byte)
    (c : WriteCall) (hc : Agrees base bytes c) (i : Nat) (hi : touches c i) :
    (applyCall f c)[i]? = bytes[i - base]? ∧ i < (applyCall f c).length := by
  obtain ⟨j, hoff, hnw, hdata⟩ := hc
  obtain ⟨h1, h2⟩ := hi
  have hnn : ¬ c.off < 0 := by omega
  have htake : c.data.take c.nw.toNat = c.data := by
    apply List.take_of_length_le
    rw [hnw]; simp
  have hoffn : c.off.toNat = base + j := by omega
  have hin1 : base + j ≤ i := by omega
  have hin2 : i < base + j + c.data.length := by omega
  have hget := getElem?_writeAt_inside f (base + j) c.data i hin1 hin2
  simp only [applyCall, hnn, if_false, htake, hoffn]
  refine ⟨?_, ?_⟩
  · rw [hget, hdata (i - (base + j)) (by omega)]
    congr 1; omega
  · have hsome : (writeAt f (base + j) c.data)[i]? ≠ none := by
      rw [hget]
      simp only [ne_eq, List.getElem?_eq_none_iff, not_le]
      omega
    by_contra hlt
    exact hsome (List.getElem?_eq_none (by omega))

/-- Whatever the order of the calls: a file offset touched by some call of
`cs`, all of which agree with `bytes` placed at `base`, ends up holding the
byte of `bytes` for that offset. -/
theorem getElem?_applyCalls_agrees (base : Nat) (bytes : List Byte) (cs : List WriteCall) :
    ∀ (f : List Byte) (i : Nat), (∀ c ∈ cs, Agrees base bytes c) →
      (∃ c ∈ cs, touches c i) → (applyCalls f cs)[i]? = bytes[i - base]? := by
  induction cs with
  | nil => intro f i _ h; obtain ⟨c, hc, _⟩ := h; simp at hc
  | cons c cs ih =>
    intro f i hall hex
    simp only [applyCalls, List.foldl_cons]
    by_cases hlater : ∃ c2 ∈ cs, touches c2 i
    · exact ih (applyCall f c) i (fun c2 hc2 => hall c2 (List.mem_cons_of_mem _ hc2)) hlater
    · have hci : touches c i := by
        obtain ⟨c2, hc2, ht⟩ := hex
        rcases List.mem_cons.1 hc2 with rfl | hmem
        · exact ht
        · exact absurd ⟨c2, hmem, ht⟩ hlater
      obtain ⟨hval, hlen⟩ :=
        getElem?_applyCall_agrees base bytes f c (hall c (List.mem_cons_self _ _)) i hci
      have hframe := getElem?_applyCalls_outside cs (applyCall f c) i hlen
        (fun c2 hc2 ht => hlater ⟨c2, hc2, ht⟩)
      simp only [applyCalls] at hframe
      rw [hframe, hval]

theorem length_applyCall_agrees (base : Nat) (bytes : List Byte) (f : List Byte)
    (c : WriteCall) (hc : Agrees base bytes c) (bound : Nat) (hf : f.length ≤ bound)
    (hb : base + bytes.length ≤ bound) : (applyCall f c).length ≤ bound := by
  obtain ⟨j, hoff, hnw, hdata⟩ := hc
  unfold applyCall
  split
  · exact hf
  · by_cases hz : c.data.length = 0
    · have hempty : c.data.take c.nw.toNat = [] := by
        rw [List.length_eq_zero.1 hz]; simp
      rw [hempty]
      simpa [writeAt] using hf
    · have h1 := length_writeAt_le f c.off.toNat (c.data.take c.nw.toNat)
      have hlen : (c.data.take c.nw.toNat).length ≤ c.data.length := by
        simp [List.length_take]
      have hk := hdata (c.data.length - 1) (by omega)
      rw [List.getElem?_eq_getElem (by omega)] at hk
      have hlt : j + (c.data.length - 1) < bytes.length := by
        by_contra hcon
        rw [List.getElem?_eq_none (by omega)] at hk
        simp at hk
      have hoffn : c.off.toNat = base + j := by omega
      rw [hoffn] at h1
      have hmax : max f.length (base + j + (c.data.take c.nw.toNat).length) ≤ bound :=
        max_le hf (by omega)
      rw [hoffn]
      exact Nat.le_trans h1 hmax

theorem length_applyCalls_agrees (base : Nat) (bytes : List Byte) (cs : List WriteCall) :
    ∀ (f : List Byte) (bound : Nat), (∀ c ∈ cs, Agrees base bytes c) → f.length ≤ bound →
      base + bytes.length ≤ bound → (applyCalls f cs).length ≤ bound := by
  induction cs with
  | nil => intro f bound _ hf _; exact hf
  | cons c cs ih =>
    intro f bound hall hf hb
    simp only [applyCalls, List.foldl_cons]
    exact ih (applyCall f c) bound (fun c2 hc2 => hall c2 (List.mem_cons_of_mem _ hc2))
      (length_applyCall_agrees base bytes f c (hall c (List.mem_cons_self _ _)) bound hf hb) hb

/-! ## The write loop under complete writes -/

theorem bytesOf_cons (r : ReadResult) (rest : List ReadResult) :
    bytesOf (r :: rest) = r.data.length + bytesOf rest := by
  simp [bytesOf]

theorem bytesOf_append (a b : List ReadResult) : bytesOf (a ++ b) = bytesOf a + bytesOf b := by
  simp [bytesOf]

theorem length_streamOf (body : List ReadResult) : (streamOf body).length = bytesOf body := by
  induction body with
  | nil => rfl
  | cons r rest ih =>
    simp only [streamOf, List.map_cons, List.flatten_cons, List.length_append] at ih ⊢
    rw [ih, bytesOf_cons]

theorem advance_nil (st : WorkerState) : advance st [] = st := by
  cases st
  simp [advance, bytesOf, callsFrom]

theorem advance_cons (st : WorkerState) (r : ReadResult) (rest : List ReadResult) :
    advance (advance st [r]) rest = advance st (r :: rest) := by
  cases st
  by_cases hd : r.data = []
  · simp [advance, bytesOf, callsFrom, hd]
  · have he : r.data.isEmpty = false := by
      cases h : r.data with
      | nil => exact absurd h hd
      | cons a t => rfl
    simp only [advance, bytesOf, callsFrom, he, List.map_cons, List.map_nil, List.sum_cons,
      List.sum_nil, Bool.false_eq_true, if_false, WorkerState.mk.injEq]
    refine ⟨?_, ?_, ?_⟩
    · push_cast; ring
    · push_cast; ring
    · simp

/-- One pass of the loop whose write, if any, is complete. -/
theorem writeStep_complete (wr : WriteAt) (r : ReadResult) (st : WorkerState)
    (h : r.data ≠ [] → wr r.data st.start = ((r.data.length : Int), none)) :
    (if (r.data.length : Int) > 0 then writeChunk wr r.data st else .ok st)
      = .ok (advance st [r]) := by
  by_cases hd : r.data = []
  · cases st
    simp [hd, advance, bytesOf, callsFrom]
  · have he : r.data.isEmpty = false := by
      cases h2 : r.data with
      | nil => exact absurd h2 hd
      | cons a t => rfl
    have hpos : (r.data.length : Int) > 0 := by
      have : 0 < r.data.length := List.length_pos.2 hd
      omega
    simp only [hpos, if_true, writeChunk, h hd, ne_eq, not_true_eq_false, if_false,
      advance, bytesOf, callsFrom, he, List.map_cons, List.map_nil, List.sum_cons,
      List.sum_nil, Bool.false_eq_true, Nat.add_zero]

/-- Reads without error whose writes are complete are all consumed, and the
loop goes on with the state `advance st pre`. -/
theorem writeLoop_append_clean (wr : WriteAt) (size : Int) (pre : List ReadResult) :
    ∀ (tail : List ReadResult) (st : WorkerState), (∀ x ∈ pre, x.er = none) →
      writesComplete wr st.start pre →
      writeLoop wr size (pre ++ tail) st = writeLoop wr size tail (advance st pre) := by
  induction pre with
  | nil => intro tail st _ _; rw [advance_nil]; rfl
  | cons r pre ih =>
    intro tail st hclean hw
    obtain ⟨hw1, hw2⟩ := hw
    have her : r.er = none := hclean r (List.mem_cons_self _ _)
    have hstart : (advance st [r]).start = st.start + r.data.length := by
      simp [advance, bytesOf]
    have hrec := ih tail (advance st [r]) (fun x hx => hclean x (List.mem_cons_of_mem _ hx))
      (by rw [hstart]; exact hw2)
    rw [advance_cons] at hrec
    rw [← hrec]
    simp only [List.cons_append, writeLoop, writeStep_complete wr r st hw1, her, checkRead]
    rfl

/-- The pass that ends the loop: a read that reports an error, its write (if
any) being complete. -/
theorem writeLoop_last (wr : WriteAt) (size : Int) (last : ReadResult) (msg : String)
    (rest : List ReadResult) (st : WorkerState)
    (hw : last.data ≠ [] → wr last.data st.start = ((last.data.length : Int), none))
    (her : last.er = some msg) :
    writeLoop wr size (last :: rest) st =
      (advance st [last],
        if msg = "EOF" then
          (if size = (advance st [last]).written then Outcome.downloaded else Outcome.unfinished)
        else Outcome.readError msg) := by
  simp only [writeLoop, writeStep_complete wr last st hw, her, checkRead]
  split <;> rename_i h
  · split at h
    · split at h <;> rename_i h1 h2 <;> simp [h1, h2] at h ⊢ <;> exact h.symm
    · rename_i h1; simp [h1] at h ⊢; exact h.symm
  · split at h
    · split at h <;> simp at h
    · simp at h

/-! ## The calls of a worker whose writes are complete -/

theorem callsFrom_data (ds : List (List Byte)) :
    ∀ start : Int, (callsFrom start ds).map (fun c => c.data)
      = ds.filter (fun d => !d.isEmpty) := by
  induction ds with
  | nil => intro start; rfl
  | cons d ds ih =>
    intro start
    by_cases he : d.isEmpty = true
    · simp [callsFrom, he, ih]
    · simp [callsFrom, he, ih]

theorem callsFrom_offsets (ds : List (List Byte)) :
    ∀ (start : Int) (k : Nat) (c : WriteCall), (callsFrom start ds)[k]? = some c →
      c.off = start + (((callsFrom start ds).take k).map (fun c => (c.data.length : Int))).sum ∧
        c.nw = c.data.length := by
  induction ds with
  | nil => intro start k c h; simp [callsFrom] at h
  | cons d ds ih =>
    intro start k c h
    by_cases he : d.isEmpty = true
    · simp only [callsFrom, he, if_true] at h ⊢
      exact ih start k c h
    · simp only [callsFrom, he, Bool.false_eq_true, if_false] at h ⊢
      cases k with
      | zero =>
        simp only [List.getElem?_cons_zero, Option.some.injEq] at h
        subst h
        simp
      | succ k =>
        simp only [List.getElem?_cons_succ] at h
        obtain ⟨h1, h2⟩ := ih (start + d.length) k c h
        refine ⟨?_, h2⟩
        rw [h1]
        simp only [List.take_succ_cons, List.map_cons, List.sum_cons]
        ring

theorem callsFrom_agrees (base : Nat) (bytes : List Byte) (ds : List (List Byte)) :
    ∀ (j0 : Nat), (∀ m : Nat, m < ds.flatten.length → bytes[j0 + m]? = ds.flatten[m]?) →
      ∀ c ∈ callsFrom ((base : Int) + j0) ds, Agrees base bytes c := by
  induction ds with
  | nil => intro j0 _ c hc; simp [callsFrom] at hc
  | cons d ds ih =>
    intro j0 hb c hc
    have htail : ∀ m : Nat, m < ds.flatten.length →
        bytes[j0 + d.length + m]? = ds.flatten[m]? := by
      intro m hm
      have := hb (d.length + m) (by simp only [List.flatten_cons, List.length_append]; omega)
      rw [List.flatten_cons, List.getElem?_append_right (by omega)] at this
      rw [Nat.add_assoc, this]
      congr 1; omega
    by_cases he : d.isEmpty = true
    · simp only [callsFrom, he, if_true] at hc
      have hd : d.length = 0 := by
        rw [List.isEmpty_iff] at he; simp [he]
      have := ih j0 (by simpa [hd] using htail) c hc
      exact this
    · simp only [callsFrom, he, Bool.false_eq_true, if_false, List.mem_cons] at hc
      rcases hc with rfl | hc
      · refine ⟨j0, rfl, rfl, ?_⟩
        intro k hk
        simp only at hk ⊢
        have := hb k (by simp only [List.flatten_cons, List.length_append]; omega)
        rw [List.flatten_cons, List.getElem?_append_left hk] at this
        exact this.symm
      · have hcast : (base : Int) + j0 + d.length = (base : Int) + ((j0 + d.length : Nat) : Int) := by
          push_cast; ring
        rw [hcast] at hc
        exact ih (j0 + d.length) htail c hc

theorem callsFrom_covers (base : Nat) (ds : List (List Byte)) :
    ∀ (j0 m : Nat), m < ds.flatten.length →
      ∃ c ∈ callsFrom ((base : Int) + j0) ds, touches c (base + j0 + m) := by
  induction ds with
  | nil => intro j0 m hm; simp at hm
  | cons d ds ih =>
    intro j0 m hm
    simp only [List.flatten_cons, List.length_append] at hm
    by_cases he : d.isEmpty = true
    · have hd : d.length = 0 := by
        rw [List.isEmpty_iff] at he; simp [he]
      simp only [callsFrom, he, if_true]
      exact ih j0 m (by omega)
    · simp only [callsFrom, he, Bool.false_eq_true, if_false, List.mem_cons]
      by_cases hin : m < d.length
      · refine ⟨_, Or.inl rfl, ?_⟩
        simp only [touches]
        constructor <;> push_cast <;> omega
      · obtain ⟨c, hc, ht⟩ := ih (j0 + d.length) (m - d.length) (by omega)
        have hcast : (base : Int) + j0 + d.length = (base : Int) + ((j0 + d.length : Nat) : Int) := by
          push_cast; ring
        refine ⟨c, Or.inr (by rw [hcast]; exact hc), ?_⟩
        have hidx : base + (j0 + d.length) + (m - d.length) = base + j0 + m := by omega
        rw [hidx] at ht
        exact ht

theorem advance_append (a : List ReadResult) :
    ∀ (st : WorkerState) (b : List ReadResult),
      advance (advance st a) b = advance st (a ++ b) := by
  induction a with
  | nil => intro st b; rw [advance_nil]; rfl
  | cons r a ih =>
    intro st b
    rw [← advance_cons st r a, ih, List.cons_append, ← advance_cons st r (a ++ b)]

theorem writesComplete_append (wr : WriteAt) (a : List ReadResult) :
    ∀ (start : Int) (b : List ReadResult),
      writesComplete wr start (a ++ b) ↔
        writesComplete wr start a ∧ writesComplete wr (start + bytesOf a) b := by
  induction a with
  | nil => intro start b; simp [writesComplete, bytesOf]
  | cons r a ih =>
    intro start b
    have hcast : start + (r.data.length : Int) + (bytesOf a : Int)
        = start + ((r.data.length + bytesOf a : Nat) : Int) := by push_cast; ring
    have h := ih (start + r.data.length) b
    rw [hcast] at h
    show (_ ∧ writesComplete wr (start + r.data.length) (a ++ b)) ↔ _
    rw [h, bytesOf_cons]
    simp only [writesComplete]
    tauto

/-- The whole loop on reads `pre ++ last :: rest`, where no read of `pre`
reports an error, `last` does, and the writes for `pre ++ [last]` are
complete: the state is `advance` over `pre ++ [last]` and the outcome is
decided by the error of `last`. -/
theorem writeLoop_complete (wr : WriteAt) (size : Int) (st : WorkerState)
    (pre : List ReadResult) (last : ReadResult) (msg : String) (rest : List ReadResult)
    (hpre : ∀ x ∈ pre, x.er = none) (hlast : last.er = some msg)
    (hwr : writesComplete wr st.start (pre ++ [last])) :
    writeLoop wr size (pre ++ last :: rest) st =
      (advance st (pre ++ [last]),
        if msg = "EOF" then
          (if size = (advance st (pre ++ [last])).written then Outcome.downloaded
            else Outcome.unfinished)
        else Outcome.readError msg) := by
  obtain ⟨hw1, hw2⟩ := (writesComplete_append wr pre st.start [last]).1 hwr
  have hstart : (advance st pre).start = st.start + bytesOf pre := rfl
  rw [writeLoop_append_clean wr size pre (last :: rest) st hpre hw1,
    writeLoop_last wr size last msg rest (advance st pre) (by rw [hstart]; exact hw2.1) hlast,
    advance_append]

/-- A pass whose write fails or is short ends the loop fatally. -/
theorem writeLoop_bad_write (wr : WriteAt) (size : Int) (r : ReadResult)
    (rest : List ReadResult) (st : WorkerState) (hd : r.data ≠ [])
    (hbad : wr r.data st.start ≠ ((r.data.length : Int), none)) :
    (writeLoop wr size (r :: rest) st).2 =
      match (wr r.data st.start).2 with
      | some e => Outcome.writeError e
      | none => Outcome.shortWrite := by
  have hpos : (r.data.length : Int) > 0 := by
    have : 0 < r.data.length := List.length_pos.2 hd
    omega
  simp only [writeLoop, hpos, if_true, writeChunk]
  cases herr : (wr r.data st.start).2 with
  | some e => simp
  | none =>
    have hne : (r.data.length : Int) ≠ (wr r.data st.start).1 := by
      intro heq
      apply hbad
      exact Prod.ext heq.symm herr
    simp [hne]

/-- If the loop ends with `"Downloaded successfully"`, the reads it consumed
are error-free up to one that reports EOF, all their writes were complete,
and the bytes written add up to `size`. -/
theorem writeLoop_downloaded (wr : WriteAt) (size : Int) (body : List ReadResult) :
    ∀ st : WorkerState, (writeLoop wr size body st).2 = Outcome.downloaded →
      ∃ pre last rest, body = pre ++ last :: rest ∧ (∀ x ∈ pre, x.er = none) ∧
        last.er = some "EOF" ∧ writesComplete wr st.start (pre ++ [last]) ∧
        size = st.written + bytesOf (pre ++ [last]) := by
  induction body with
  | nil => intro st h; simp [writeLoop] at h
  | cons r body ih =>
    intro st h
    by_cases hw : r.data ≠ [] → wr r.data st.start = ((r.data.length : Int), none)
    · cases her : r.er with
      | none =>
        have hstep := writeLoop_append_clean wr size [r] body st
          (by intro x hx; rw [List.mem_singleton.1 hx]; exact her)
          ⟨hw, trivial⟩
        rw [List.singleton_append] at hstep
        rw [hstep] at h
        obtain ⟨pre, last, rest, hb, hpre, hlast, hwc, hsize⟩ := ih (advance st [r]) h
        refine ⟨r :: pre, last, rest, by rw [hb]; rfl, ?_, hlast, ?_, ?_⟩
        · intro x hx
          rcases List.mem_cons.1 hx with rfl | hx
          · exact her
          · exact hpre x hx
        · refine ⟨hw, ?_⟩
          have : (advance st [r]).start = st.start + r.data.length := by
            simp [advance, bytesOf]
          rw [this] at hwc
          exact hwc
        · have : (advance st [r]).written = st.written + r.data.length := by
            simp [advance, bytesOf]
          rw [this] at hsize
          rw [hsize, List.cons_append, bytesOf_cons]
          push_cast; ring
      | some msg =>
        rw [writeLoop_last wr size r msg body st hw her] at h
        simp only at h
        by_cases hm : msg = "EOF"
        · rw [if_pos hm] at h
          by_cases hs : size = (advance st [r]).written
          · refine ⟨[], r, body, rfl, by simp, by rw [her, hm], ⟨hw, trivial⟩, ?_⟩
            rw [hs]; rfl
          · rw [if_neg hs] at h; cases h
        · rw [if_neg hm] at h; cases h
    · have hd : r.data ≠ [] := fun hd => hw (fun hne => absurd hd hne)
      have hbad : wr r.data st.start ≠ ((r.data.length : Int), none) := fun hq => hw (fun _ => hq)
      rw [writeLoop_bad_write wr size r body st hd hbad] at h
      split at h <;> cases h

/-! ## The write loop: offsets, content, and how it ends -/

/-- Claim C4: in `writeRange`, for a start offset `start ≥ 0` and a stream
read as `pre ++ [last]` (no read of `pre` reports an error, `last` does, which
ends the loop) whose writes all complete in full, the loop ends; the calls of
`WriteAt` are the non-empty chunks in stream order; the `k`-th call is at
offset `start` plus the total length of the chunks written before it; the file
bytes at `[start, start+n)` are then the `n` bytes of the stream in stream
order; and `written = n`. -/
theorem C4_chunks_written_in_stream_order (wr : WriteAt) (size start : Int)
    (pre : List ReadResult) (last : ReadResult) (msg : String) (rest : List ReadResult)
    (h0 : 0 ≤ start) (hpre : ∀ x ∈ pre, x.er = none) (hlast : last.er = some msg)
    (hwr : writesComplete wr start (pre ++ [last])) :
    ∃ st outcome,
      writeLoop wr size (pre ++ last :: rest) { start := start, written := 0, calls := [] }
        = (st, outcome) ∧
      outcome ≠ Outcome.reading ∧
      st.calls.map (fun c => c.data)
        = ((pre ++ [last]).map (fun r => r.data)).filter (fun d => !d.isEmpty) ∧
      (∀ (k : Nat) (c : WriteCall), st.calls[k]? = some c →
        c.off = start + ((st.calls.take k).map (fun c => (c.data.length : Int))).sum ∧
          c.nw = c.data.length) ∧
      (∀ (f : List Byte) (i : Nat), i < bytesOf (pre ++ [last]) →
        (applyCalls f st.calls)[start.toNat + i]? = (streamOf (pre ++ [last]))[i]?) ∧
      st.written = bytesOf (pre ++ [last]) := by
  have hloop := writeLoop_complete wr size { start := start, written := 0, calls := [] }
    pre last msg rest hpre hlast hwr
  have hcalls : (advance { start := start, written := 0, calls := [] } (pre ++ [last])).calls
      = callsFrom start ((pre ++ [last]).map fun r => r.data) := by
    simp [advance]
  have hstart : start = ((start.toNat : Nat) : Int) + ((0 : Nat) : Int) := by
    rw [Int.toNat_of_nonneg h0]; simp
  refine ⟨_, _, hloop, ?_, ?_, ?_, ?_, ?_⟩
  · split
    · split <;> simp
    · simp
  · rw [hcalls]; exact callsFrom_data _ _
  · rw [hcalls]; exact callsFrom_offsets _ _
  · intro f i hi
    rw [hcalls]
    have hlen : i < ((pre ++ [last]).map fun r => r.data).flatten.length := by
      have := length_streamOf (pre ++ [last])
      unfold streamOf at this
      omega
    have hag : ∀ c ∈ callsFrom start ((pre ++ [last]).map fun r => r.data),
        Agrees start.toNat (streamOf (pre ++ [last])) c := by
      rw [hstart]
      simp only [Int.toNat_ofNat, Nat.cast_zero, Int.add_zero] at *
      have := callsFrom_agrees start.toNat (streamOf (pre ++ [last]))
        ((pre ++ [last]).map fun r => r.data) 0 (by intro m _; simp [streamOf])
      simpa using this
    have hcov : ∃ c ∈ callsFrom start ((pre ++ [last]).map fun r => r.data),
        touches c (start.toNat + i) := by
      have := callsFrom_covers start.toNat ((pre ++ [last]).map fun r => r.data) 0 i hlen
      rw [← hstart] at this
      simpa using this
    have := getElem?_applyCalls_agrees start.toNat (streamOf (pre ++ [last])) _ f
      (start.toNat + i) hag hcov
    rw [this]
    congr 1; omega
  · simp [advance]

/-- Witness of C4: start 5, the stream `[1,2]`, `[3]`+EOF, complete writes. -/
theorem C4_chunks_written_in_stream_order_witness :
    ∃ st outcome,
      writeLoop wrComplete 3 (samplePre ++ sampleLast :: [])
        { start := 5, written := 0, calls := [] } = (st, outcome) ∧
      outcome ≠ Outcome.reading ∧
      st.calls.map (fun c => c.data)
        = ((samplePre ++ [sampleLast]).map (fun r => r.data)).filter (fun d => !d.isEmpty) ∧
      (∀ (k : Nat) (c : WriteCall), st.calls[k]? = some c →
        c.off = 5 + ((st.calls.take k).map (fun c => (c.data.length : Int))).sum ∧
          c.nw = c.data.length) ∧
      (∀ (f : List Byte) (i : Nat), i < bytesOf (samplePre ++ [sampleLast]) →
        (applyCalls f st.calls)[(5 : Int).toNat + i]?
          = (streamOf (samplePre ++ [sampleLast]))[i]?) ∧
      st.written = bytesOf (samplePre ++ [sampleLast]) :=
  C4_chunks_written_in_stream_order wrComplete 3 5 samplePre sampleLast "EOF" []
    (by decide) (by simp [samplePre]) rfl
    (by simp [writesComplete, wrComplete, samplePre, sampleLast])

/-- Claim C5: the write loop of `writeRange` ends with
`"Downloaded successfully"` if and only if the reads it consumes are
error-free up to one that reports EOF, every write for them returned no error
and as many bytes as were read, and the bytes written then equal the declared
size; a short write ends it fatally; and a stream that ends (EOF) with the
bytes written different from the declared size ends it with the error
`Part unfinished`, through `handleError`. -/
theorem C5_loop_success_iff (wr : WriteAt) (size start : Int) (body : List ReadResult) :
    ((writeLoop wr size body { start := start, written := 0, calls := [] }).2
        = Outcome.downloaded ↔
      ∃ pre last rest, body = pre ++ last :: rest ∧ (∀ x ∈ pre, x.er = none) ∧
        last.er = some "EOF" ∧ writesComplete wr start (pre ++ [last]) ∧
        size = bytesOf (pre ++ [last])) ∧
    (∀ pre x rest nw, body = pre ++ x :: rest → (∀ y ∈ pre, y.er = none) →
      writesComplete wr start pre → x.data ≠ [] →
      wr x.data (start + bytesOf pre) = (nw, none) → nw ≠ x.data.length →
      (writeLoop wr size body { start := start, written := 0, calls := [] }).2
        = Outcome.shortWrite) ∧
    (∀ pre last rest, body = pre ++ last :: rest → (∀ y ∈ pre, y.er = none) →
      last.er = some "EOF" → writesComplete wr start (pre ++ [last]) →
      size ≠ bytesOf (pre ++ [last]) →
      (writeLoop wr size body { start := start, written := 0, calls := [] }).2
        = Outcome.unfinished) := by
  have hwritten : ∀ evs : List ReadResult,
      (advance { start := start, written := 0, calls := [] } evs).written = bytesOf evs := by
    intro evs; simp [advance]
  refine ⟨⟨?_, ?_⟩, ?_, ?_⟩
  · intro h
    obtain ⟨pre, last, rest, hb, hpre, hlast, hwc, hsize⟩ :=
      writeLoop_downloaded wr size body _ h
    exact ⟨pre, last, rest, hb, hpre, hlast, hwc, by simpa using hsize⟩
  · rintro ⟨pre, last, rest, rfl, hpre, hlast, hwc, hsize⟩
    rw [writeLoop_complete wr size _ pre last "EOF" rest hpre hlast hwc]
    simp [hwritten, hsize]
  · intro pre x rest nw hb hpre hwc hd hx hnw
    subst hb
    rw [writeLoop_append_clean wr size pre (x :: rest) _ hpre hwc]
    have hstart : (advance { start := start, written := 0, calls := [] } pre).start
        = start + bytesOf pre := rfl
    have hbad : wr x.data (advance { start := start, written := 0, calls := [] } pre).start
        ≠ ((x.data.length : Int), none) := by
      rw [hstart, hx]
      intro hq
      exact hnw (congrArg Prod.fst hq)
    rw [writeLoop_bad_write wr size x rest _ hd hbad, hstart, hx]
  · intro pre last rest hb hpre hlast hwc hsize
    subst hb
    rw [writeLoop_complete wr size _ pre last "EOF" rest hpre hlast hwc]
    simp [hwritten, hsize]

/-- Witness of C5 on the sample body of three bytes: declared size 3 and
complete writes end with success; a short write at offset 2 is fatal; declared
size 4 ends with `unfinished`. -/
theorem C5_loop_success_iff_witness :
    (writeLoop wrComplete 3 sampleBody { start := 0, written := 0, calls := [] }).2
      = Outcome.downloaded ∧
    (writeLoop wrShortAt2 3 sampleBody { start := 0, written := 0, calls := [] }).2
      = Outcome.shortWrite ∧
    (writeLoop wrComplete 4 sampleBody { start := 0, written := 0, calls := [] }).2
      = Outcome.unfinished :=
  ⟨(C5_loop_success_iff wrComplete 3 0 sampleBody).1.2
      ⟨samplePre, sampleLast, [], rfl, by simp [samplePre], rfl,
        by simp [writesComplete, wrComplete, samplePre, sampleLast], by decide⟩,
    (C5_loop_success_iff wrShortAt2 3 0 sampleBody).2.1
      samplePre sampleLast [] 0 rfl (by simp [samplePre])
      (by simp [writesComplete, wrShortAt2, samplePre]) (by simp [sampleLast])
      (by decide) (by decide),
    (C5_loop_success_iff wrComplete 4 0 sampleBody).2.2
      samplePre sampleLast [] rfl (by simp [samplePre]) rfl
      (by simp [writesComplete, wrComplete, samplePre, sampleLast]) (by decide)⟩

/-! ## The writes of a worker and its range -/

/-- Whatever the writes return: every call the loop issues lies in the window
`[st.start, st.start + n)`, where `n` is the number of bytes of the reads. -/
theorem writeLoop_calls_window (wr : WriteAt) (size : Int) (body : List ReadResult) :
    ∀ st : WorkerState, ∃ new, (writeLoop wr size body st).1.calls = st.calls ++ new ∧
      ∀ c ∈ new, st.start ≤ c.off ∧ c.off + c.data.length ≤ st.start + bytesOf body := by
  induction body with
  | nil => intro st; exact ⟨[], by simp [writeLoop], by simp⟩
  | cons r body ih =>
    intro st
    rw [bytesOf_cons]
    by_cases hw : r.data ≠ [] → wr r.data st.start = ((r.data.length : Int), none)
    · have hst : (advance st [r]).start = st.start + r.data.length := by
        simp [advance, bytesOf]
      have hcalls : ∃ one, (advance st [r]).calls = st.calls ++ one ∧
          ∀ c ∈ one, c.off = st.start ∧ c.data = r.data := by
        by_cases hd : r.data.isEmpty = true
        · exact ⟨[], by simp [advance, callsFrom, hd], by simp⟩
        · exact ⟨[{ data := r.data, off := st.start, nw := r.data.length }],
            by simp [advance, callsFrom, hd], by simp⟩
      obtain ⟨one, hone, hbound⟩ := hcalls
      cases her : r.er with
      | none =>
        have hstep := writeLoop_append_clean wr size [r] body st
          (by intro x hx; rw [List.mem_singleton.1 hx]; exact her) ⟨hw, trivial⟩
        rw [List.singleton_append] at hstep
        obtain ⟨new, hnew, hb⟩ := ih (advance st [r])
        refine ⟨one ++ new, by rw [hstep, hnew, hone, List.append_assoc], ?_⟩
        intro c hc
        rcases List.mem_append.1 hc with h | h
        · obtain ⟨h1, h2⟩ := hbound c h
          rw [h1, h2]; push_cast; omega
        · obtain ⟨h1, h2⟩ := hb c h
          rw [hst] at h1 h2
          push_cast; omega
      | some msg =>
        rw [writeLoop_last wr size r msg body st hw her]
        refine ⟨one, hone, ?_⟩
        intro c hc
        obtain ⟨h1, h2⟩ := hbound c hc
        rw [h1, h2]; push_cast; omega
    · have hd : r.data ≠ [] := fun hd => hw (fun hne => absurd hd hne)
      have hpos : (r.data.length : Int) > 0 := by
        have : 0 < r.data.length := List.length_pos.2 hd
        omega
      have hbad : wr r.data st.start ≠ ((r.data.length : Int), none) := fun hq => hw (fun _ => hq)
      refine ⟨[{ data := r.data, off := st.start, nw := (wr r.data st.start).1 }], ?_, ?_⟩
      · simp only [writeLoop, hpos, if_true, writeChunk]
        cases herr : (wr r.data st.start).2 with
        | some e => rfl
        | none =>
          have hne : (r.data.length : Int) ≠ (wr r.data st.start).1 := by
            intro heq
            exact hbad (Prod.ext heq.symm herr)
          simp [hne]
      · intro c hc
        rw [List.mem_singleton.1 hc]
        simp only
        push_cast; omega

/-- Every call of `writeRange` lies in `[start, start + n)`, where `n` is the
number of bytes of the body the server returned for the range request. -/
theorem writeRange_calls_window (parseInt : ParseInt) (transport : Transport) (wr : WriteAt)
    (start end_ : Int) :
    ∀ c ∈ (writeRange parseInt transport wr start end_).1.calls,
      ∃ resp, transport (some (rangeHeader start end_)) = .ok resp ∧
        start ≤ c.off ∧ c.off + c.data.length ≤ start + bytesOf resp.body := by
  intro c hc
  unfold writeRange getRangeBody at hc
  cases ht : transport (some (rangeHeader start end_)) with
  | error e => simp [ht] at hc
  | ok resp =>
    refine ⟨resp, rfl, ?_⟩
    rw [ht] at hc
    simp only at hc
    split at hc
    · simp at hc
    · rename_i body size err hget
      split at hget
      · rename_i cl more hcl
        simp only [Option.some.injEq, Prod.mk.injEq] at hget
        obtain ⟨hbody, _, _⟩ := hget
        split at hc
        · simp at hc
        · obtain ⟨new, hnew, hb⟩ := writeLoop_calls_window wr size body
            { start := start, written := 0, calls := [] }
          rw [hnew] at hc
          simp only [List.nil_append] at hc
          rw [hbody]
          exact hb c hc
      · simp at hget

/-- Claim C7 fails for the range `[0, 1]` when the server returns three bytes
(it declares the three bytes it sends): the run ends with success, the worker
writes offset 2, outside `[0, 1]`, and the byte of the file at offset 2
changes. -/
theorem C7_overlong_stream_leaves_range :
    (writeRange parseSample threeByteTransport wrComplete 0 1).2 = Outcome.downloaded ∧
    (∃ c ∈ (writeRange parseSample threeByteTransport wrComplete 0 1).1.calls, touches c 2) ∧
    ¬ ((2 : Int) ≤ 1) ∧
    (applyCalls [9, 9, 9, 9]
        (writeRange parseSample threeByteTransport wrComplete 0 1).1.calls)[2]?
      ≠ ([9, 9, 9, 9] : List Byte)[2]? := by
  decide

/-- Claim C7 as amended: when the body the server returns for the range
`[start, end_]` has at most `end_ - start + 1` bytes, every offset the worker
writes lies in `[start, end_]`, every byte the file had outside the range is
unchanged, and a second worker whose range starts after `end_` (its body
fitting its range too) writes no offset the first one writes. -/
theorem C7_writes_inside_range_when_stream_fits (parseInt : ParseInt)
    (transport : Transport) (wr : WriteAt) (start end_ : Int)
    (hfit : ∀ resp, transport (some (rangeHeader start end_)) = .ok resp →
      (bytesOf resp.body : Int) ≤ end_ - start + 1) :
    (∀ c ∈ (writeRange parseInt transport wr start end_).1.calls, ∀ i : Nat,
      touches c i → start ≤ (i : Int) ∧ (i : Int) ≤ end_) ∧
    (∀ (f : List Byte) (i : Nat), i < f.length → ((i : Int) < start ∨ end_ < (i : Int)) →
      (applyCalls f (writeRange parseInt transport wr start end_).1.calls)[i]? = f[i]?) ∧
    (∀ (wr2 : WriteAt) (start2 end2 : Int), end_ < start2 →
      (∀ resp, transport (some (rangeHeader start2 end2)) = .ok resp →
        (bytesOf resp.body : Int) ≤ end2 - start2 + 1) →
      ∀ c ∈ (writeRange parseInt transport wr start end_).1.calls,
      ∀ c2 ∈ (writeRange parseInt transport wr2 start2 end2).1.calls,
      ∀ i : Nat, ¬ (touches c i ∧ touches c2 i)) := by
  have inside : ∀ (w : WriteAt) (s e : Int),
      (∀ resp, transport (some (rangeHeader s e)) = .ok resp →
        (bytesOf resp.body : Int) ≤ e - s + 1) →
      ∀ c ∈ (writeRange parseInt transport w s e).1.calls, ∀ i : Nat,
        touches c i → s ≤ (i : Int) ∧ (i : Int) ≤ e := by
    intro w s e hf c hc i hi
    obtain ⟨resp, hresp, h1, h2⟩ := writeRange_calls_window parseInt transport w s e c hc
    have h3 := hf resp hresp
    obtain ⟨h4, h5⟩ := hi
    constructor <;> omega
  refine ⟨inside wr start end_ hfit, ?_, ?_⟩
  · intro f i hi hout
    apply getElem?_applyCalls_outside _ f i hi
    intro c hc ht
    have := inside wr start end_ hfit c hc i ht
    omega
  · intro wr2 start2 end2 hlt hfit2 c hc c2 hc2 i hboth
    have h1 := inside wr start end_ hfit c hc i hboth.1
    have h2 := inside wr2 start2 end2 hfit2 c2 hc2 i hboth.2
    omega

/-- Witness of the amended C7: the range `[0, 2]` and a server that returns
three bytes. -/
theorem C7_writes_inside_range_when_stream_fits_witness :
    (∀ c ∈ (writeRange parseSample threeByteTransport wrComplete 0 2).1.calls, ∀ i : Nat,
      touches c i → (0 : Int) ≤ (i : Int) ∧ (i : Int) ≤ 2) ∧
    (∀ (f : List Byte) (i : Nat), i < f.length → ((i : Int) < 0 ∨ 2 < (i : Int)) →
      (applyCalls f (writeRange parseSample threeByteTransport wrComplete 0 2).1.calls)[i]?
        = f[i]?) ∧
    (∀ (wr2 : WriteAt) (start2 end2 : Int), 2 < start2 →
      (∀ resp, threeByteTransport (some (rangeHeader start2 end2)) = .ok resp →
        (bytesOf resp.body : Int) ≤ end2 - start2 + 1) →
      ∀ c ∈ (writeRange parseSample threeByteTransport wrComplete 0 2).1.calls,
      ∀ c2 ∈ (writeRange parseSample threeByteTransport wr2 start2 end2).1.calls,
      ∀ i : Nat, ¬ (touches c i ∧ touches c2 i)) :=
  C7_writes_inside_range_when_stream_fits parseSample threeByteTransport wrComplete 0 2
    (by
      intro resp h
      cases h
      decide)

/-! ## A whole run against a server that honours the range requests -/

theorem writesComplete_of_complete (wr : WriteAt) (hwr : CompleteWrites wr)
    (body : List ReadResult) : ∀ start : Int, writesComplete wr start body := by
  induction body with
  | nil => intro start; trivial
  | cons r body ih => intro start; exact ⟨fun _ => hwr _ _, ih _⟩

theorem length_slice (res : List Byte) (s e : Int) (hs : 0 ≤ s) (hse : s ≤ e + 1)
    (he : e < res.length) : ((slice res s e).length : Int) = e - s + 1 := by
  simp only [slice, List.length_take, List.length_drop]
  omega

theorem getElem?_slice (res : List Byte) (s e : Int) (m : Nat)
    (hm : m < (slice res s e).length) : res[s.toNat + m]? = (slice res s e)[m]? := by
  simp only [slice, List.length_take, List.length_drop] at hm
  simp only [slice]
  rw [List.getElem?_take_of_lt (by omega), List.getElem?_drop]

/-- One worker against a server that honours its range request, with complete
writes: the worker ends with success, has written the `end_ - start + 1` bytes
of its range, each call puts bytes of the resource at their own offsets, and
every offset of the range is written. -/
theorem writeRange_served (parseInt : ParseInt) (transport : Transport) (wr : WriteAt)
    (res : List Byte) (s e : Int) (hs : 0 ≤ s) (hse : s ≤ e + 1) (he : e < res.length)
    (hwr : CompleteWrites wr) (hsrv : ServesRange parseInt transport res (s, e)) :
    ∃ st, writeRange parseInt transport wr s e = (st, Outcome.downloaded) ∧
      st.written = e - s + 1 ∧ (∀ c ∈ st.calls, Agrees 0 res c) ∧
      (∀ i : Nat, s ≤ (i : Int) → (i : Int) ≤ e → ∃ c ∈ st.calls, touches c i) := by
  obtain ⟨resp, cl, more, hresp, hcl, hparse, hdel⟩ := hsrv
  simp only at hresp hparse hdel
  simp only [delivers, Bool.and_eq_true, decide_eq_true_eq, List.all_eq_true,
    Option.isNone_iff_eq_none] at hdel
  obtain ⟨⟨hstream, hclean⟩, hlast⟩ := hdel
  have hne : resp.body ≠ [] := by
    intro h; rw [h] at hlast; simp at hlast
  have hsplit : resp.body = resp.body.dropLast ++ resp.body.getLast hne :: [] :=
    (List.dropLast_append_getLast hne).symm
  have hlastEr : (resp.body.getLast hne).er = some "EOF" := by
    rw [List.getLast?_eq_getLast _ hne] at hlast
    simpa using hlast
  have hbytes : (bytesOf resp.body : Int) = e - s + 1 := by
    rw [← length_streamOf, hstream]
    exact length_slice res s e hs hse he
  have hloop := writeLoop_complete wr (e - s + 1) { start := s, written := 0, calls := [] }
    resp.body.dropLast (resp.body.getLast hne) "EOF" [] hclean hlastEr
    (writesComplete_of_complete wr hwr _ _)
  rw [← hsplit] at hloop
  have hadv : (advance { start := s, written := 0, calls := [] } resp.body).written
      = e - s + 1 := by
    simp [advance, hbytes]
  rw [hadv] at hloop
  simp only [if_true] at hloop
  have hflat : (resp.body.map fun r => r.data).flatten = slice res s e := hstream
  have hsn : s = ((0 : Nat) : Int) + ((s.toNat : Nat) : Int) := by
    rw [Int.toNat_of_nonneg hs]; simp
  refine ⟨advance { start := s, written := 0, calls := [] } resp.body, ?_, hadv, ?_, ?_⟩
  · simp only [writeRange, getRangeBody, hresp, hcl, hparse]
    exact hloop
  · intro c hc
    simp only [advance, List.nil_append] at hc
    rw [hsn] at hc
    exact callsFrom_agrees 0 res _ s.toNat
      (by
        intro m hm
        rw [hflat] at hm ⊢
        exact getElem?_slice res s e m hm) c hc
  · intro i hi1 hi2
    simp only [advance, List.nil_append]
    have hlen : i - s.toNat < (resp.body.map fun r => r.data).flatten.length := by
      have h1 := length_slice res s e hs hse he
      rw [hflat]
      omega
    obtain ⟨c, hc, ht⟩ := callsFrom_covers 0 (resp.body.map fun r => r.data) s.toNat
      (i - s.toNat) hlen
    rw [← hsn] at hc
    refine ⟨c, hc, ?_⟩
    have hidx : 0 + s.toNat + (i - s.toNat) = i := by omega
    rw [hidx] at ht
    exact ht

theorem length_le_applyCalls (cs : List WriteCall) :
    ∀ f : List Byte, f.length ≤ (applyCalls f cs).length := by
  induction cs with
  | nil => intro f; exact Nat.le_refl _
  | cons c cs ih =>
    intro f
    simp only [applyCalls, List.foldl_cons]
    exact Nat.le_trans (length_le_applyCall f c) (ih (applyCall f c))

/-- A call that puts bytes of `res` at their own offsets touches only offsets
of `res`. -/
theorem touches_lt_of_agrees (res : List Byte) (c : WriteCall) (hc : Agrees 0 res c)
    (i : Nat) (hi : touches c i) : i < res.length := by
  obtain ⟨j, hoff, _, hdata⟩ := hc
  obtain ⟨h1, h2⟩ := hi
  have hk := hdata (i - j) (by omega)
  rw [List.getElem?_eq_getElem (by omega)] at hk
  by_contra hcon
  rw [List.getElem?_eq_none (by omega)] at hk
  simp at hk

/-- Calls that all put bytes of `res` at their own offsets and together write
every offset of `res`, applied in any order to a file `f`: the first
`res.length` bytes of the file become `res`, everything from offset
`res.length` on is as it was in `f`, and the file is exactly `res` when `f` was
no longer than `res`. -/
theorem applyCalls_rebuilds (res : List Byte) (cs : List WriteCall) (f : List Byte)
    (hag : ∀ c ∈ cs, Agrees 0 res c)
    (hcov : ∀ i : Nat, i < res.length → ∃ c ∈ cs, touches c i) :
    (∀ i : Nat, i < res.length → (applyCalls f cs)[i]? = res[i]?) ∧
    (∀ i : Nat, res.length ≤ i → (applyCalls f cs)[i]? = f[i]?) ∧
    (f.length ≤ res.length → applyCalls f cs = res) := by
  have hin : ∀ i : Nat, i < res.length → (applyCalls f cs)[i]? = res[i]? := by
    intro i hi
    exact getElem?_applyCalls_agrees 0 res cs f i hag (hcov i hi)
  refine ⟨hin, ?_, ?_⟩
  · intro i hi
    by_cases hif : i < f.length
    · apply getElem?_applyCalls_outside cs f i hif
      intro c hc ht
      have := touches_lt_of_agrees res c (hag c hc) i ht
      omega
    · have hlen := length_applyCalls_agrees 0 res cs f (max f.length res.length) hag
        (Nat.le_max_left _ _) (by simp)
      have hmax : max f.length res.length ≤ i := max_le (by omega) hi
      rw [List.getElem?_eq_none (by omega), List.getElem?_eq_none (by omega)]
  · intro hf
    apply List.ext_getElem?
    intro i
    by_cases hi : i < res.length
    · exact hin i hi
    · have hlen := length_applyCalls_agrees 0 res cs f res.length hag hf (by omega)
      rw [List.getElem?_eq_none (by omega), List.getElem?_eq_none (by omega)]

/-- A run with `totalSize = 1000`, `workerCount = 4` against a server that
honours the four range requests, with complete writes: the four workers end
with success, have written 1000 bytes in total, every call of theirs puts
bytes of the resource at their own offsets, and every offset below 1000 is
written by some call. -/
theorem mainDownload_served (parseInt : ParseInt) (transport : Transport)
    (wr : WriteAt) (res : List Byte) (hlen : res.length = 1000) (hwr : CompleteWrites wr)
    (hsrv : ∀ r ∈ [((0 : Int), (249 : Int)), (250, 499), (500, 749), (750, 999)],
      ServesRange parseInt transport res r) :
    ∃ workers, mainDownload parseInt transport wr 1000 4 = some workers ∧
      workers.length = 4 ∧
      (∀ w ∈ workers, w.2 = Outcome.downloaded) ∧
      (workers.map fun w => w.1.written).sum = 1000 ∧
      (∀ c ∈ (workers.map fun w => w.1.calls).flatten, Agrees 0 res c) ∧
      (∀ i : Nat, i < 1000 → ∃ c ∈ (workers.map fun w => w.1.calls).flatten, touches c i) := by
  have hpart : mainPartition 1000 4 = some [(0, 249), (250, 499), (500, 749), (750, 999)] := by
    decide
  have hl : ((res.length : Nat) : Int) = 1000 := by rw [hlen]; rfl
  obtain ⟨st0, hw0, hn0, hag0, hcov0⟩ := writeRange_served parseInt transport wr res 0 249
    (by omega) (by omega) (by omega) hwr (hsrv _ (by simp))
  obtain ⟨st1, hw1, hn1, hag1, hcov1⟩ := writeRange_served parseInt transport wr res 250 499
    (by omega) (by omega) (by omega) hwr (hsrv _ (by simp))
  obtain ⟨st2, hw2, hn2, hag2, hcov2⟩ := writeRange_served parseInt transport wr res 500 749
    (by omega) (by omega) (by omega) hwr (hsrv _ (by simp))
  obtain ⟨st3, hw3, hn3, hag3, hcov3⟩ := writeRange_served parseInt transport wr res 750 999
    (by omega) (by omega) (by omega) hwr (hsrv _ (by simp))
  have hmem : ∀ c, c ∈ ([(st0, Outcome.downloaded), (st1, Outcome.downloaded),
      (st2, Outcome.downloaded), (st3, Outcome.downloaded)].map fun w => w.1.calls).flatten ↔
      (c ∈ st0.calls ∨ c ∈ st1.calls ∨ c ∈ st2.calls ∨ c ∈ st3.calls) := by
    intro c
    simp only [List.map_cons, List.map_nil, List.flatten_cons, List.flatten_nil,
      List.mem_append, List.append_nil, or_assoc]
  refine ⟨[(st0, Outcome.downloaded), (st1, Outcome.downloaded),
    (st2, Outcome.downloaded), (st3, Outcome.downloaded)], ?_, rfl, ?_, ?_, ?_, ?_⟩
  · simp only [mainDownload, hpart, List.map_cons, List.map_nil, hw0, hw1, hw2, hw3]
  · intro w hw
    simp only [List.mem_cons, List.mem_singleton, List.not_mem_nil, or_false] at hw
    rcases hw with rfl | rfl | rfl | rfl <;> rfl
  · simp only [List.map_cons, List.map_nil, List.sum_cons, List.sum_nil, hn0, hn1, hn2, hn3]
    decide
  · intro c hc
    rcases (hmem c).1 hc with h | h | h | h
    · exact hag0 c h
    · exact hag1 c h
    · exact hag2 c h
    · exact hag3 c h
  · intro i hi
    by_cases h0 : i ≤ 249
    · obtain ⟨c, hc, ht⟩ := hcov0 i (by omega) (by omega)
      exact ⟨c, (hmem c).2 (Or.inl hc), ht⟩
    · by_cases h1 : i ≤ 499
      · obtain ⟨c, hc, ht⟩ := hcov1 i (by omega) (by omega)
        exact ⟨c, (hmem c).2 (Or.inr (Or.inl hc)), ht⟩
      · by_cases h2 : i ≤ 749
        · obtain ⟨c, hc, ht⟩ := hcov2 i (by omega) (by omega)
          exact ⟨c, (hmem c).2 (Or.inr (Or.inr (Or.inl hc))), ht⟩
        · obtain ⟨c, hc, ht⟩ := hcov3 i (by omega) (by omega)
          exact ⟨c, (hmem c).2 (Or.inr (Or.inr (Or.inr hc))), ht⟩

/-- The sample server honours the four range requests of a 1000-byte run. -/
theorem rangeServer_serves (res : List Byte) :
    ∀ r ∈ [((0 : Int), (249 : Int)), (250, 499), (500, 749), (750, 999)],
      ServesRange parseSample (rangeServer res) res r := by
  intro r hr
  simp only [List.mem_cons, List.mem_singleton, List.not_mem_nil, or_false] at hr
  rcases hr with rfl | rfl | rfl | rfl <;>
    exact ⟨_, "250", [], rfl, rfl, by decide, by simp [delivers, streamOf]⟩

/-- Claim C3 fails when the output file already exists and is longer than the
resource: for the sample resource of 1000 bytes behind a server that honours
the range requests, with complete writes and an existing output file of 1003
bytes (all 7), the four workers end with success, and the output file, with
their writes applied in launch order, still has 1003 bytes, its byte at offset
1002 is still 7, and it is not equal to the resource. -/
theorem C3_existing_longer_file_keeps_tail :
    sampleResource.length = 1000 ∧
    ∃ workers,
      mainDownload parseSample (rangeServer sampleResource) wrComplete 1000 4 = some workers ∧
      (∀ w ∈ workers, w.2 = Outcome.downloaded) ∧
      (applyCalls (openOutput (some (List.replicate 1003 7)))
        (workers.map fun w => w.1.calls).flatten).length = 1003 ∧
      (applyCalls (openOutput (some (List.replicate 1003 7)))
        (workers.map fun w => w.1.calls).flatten)[1002]? = some 7 ∧
      applyCalls (openOutput (some (List.replicate 1003 7)))
        (workers.map fun w => w.1.calls).flatten ≠ sampleResource := by
  have hlen : sampleResource.length = 1000 := by simp [sampleResource]
  obtain ⟨workers, hrun, _, hok, _, hag, hcov⟩ :=
    mainDownload_served parseSample (rangeServer sampleResource) wrComplete sampleResource
      hlen (fun _ _ => rfl) (rangeServer_serves sampleResource)
  have hfile : (openOutput (some (List.replicate 1003 (7 : Byte)))).length = 1003 :=
    List.length_replicate 1003 7
  have h1 := length_le_applyCalls (workers.map fun w => w.1.calls).flatten
    (openOutput (some (List.replicate 1003 7)))
  have h2 := length_applyCalls_agrees 0 sampleResource
    (workers.map fun w => w.1.calls).flatten (openOutput (some (List.replicate 1003 7)))
    1003 hag (by omega) (by omega)
  have h3 := (applyCalls_rebuilds sampleResource (workers.map fun w => w.1.calls).flatten
    (openOutput (some (List.replicate 1003 7))) hag (by rw [hlen]; exact hcov)).2.1 1002
    (by omega)
  refine ⟨hlen, workers, hrun, hok, by omega, ?_, ?_⟩
  · rw [h3]
    show (List.replicate 1003 (7 : Byte))[1002]? = some 7
    rw [List.getElem?_replicate]
    rfl
  · intro heq
    rw [heq] at h1
    omega

/-- Claim C3 as amended: for a resource of 1000 bytes, a server that answers
each of the range requests of the run with exactly the bytes asked for and
declares their count, and writes that are all complete, a run with
`workerCount = 4` uses the ranges `[0,249],[250,499],[500,749],[750,999]`; the
four workers all end with success and have written 1000 bytes in total; and in
whatever order their writes are applied to the output file as `main` opened it
(any permutation of all the calls), the first 1000 bytes of the file are the
resource byte for byte, every byte from offset 1000 on is as it was before the
run, and the file is equal to the resource when it was at most 1000 bytes
long before the run (in particular when the run created it). -/
theorem C3_four_workers_rebuild_first_1000_bytes (parseInt : ParseInt)
    (transport : Transport) (wr : WriteAt) (res : List Byte) (hlen : res.length = 1000)
    (hwr : CompleteWrites wr)
    (hsrv : ∀ r ∈ [((0 : Int), (249 : Int)), (250, 499), (500, 749), (750, 999)],
      ServesRange parseInt transport res r) :
    mainPartition 1000 4 = some [(0, 249), (250, 499), (500, 749), (750, 999)] ∧
    ∃ workers, mainDownload parseInt transport wr 1000 4 = some workers ∧
      workers.length = 4 ∧
      (∀ w ∈ workers, w.2 = Outcome.downloaded) ∧
      (workers.map fun w => w.1.written).sum = 1000 ∧
      ∀ (order : List WriteCall) (existing : Option (List Byte)),
        List.Perm order (workers.map fun w => w.1.calls).flatten →
        (∀ i : Nat, i < 1000 →
          (applyCalls (openOutput existing) order)[i]? = res[i]?) ∧
        (∀ i : Nat, 1000 ≤ i →
          (applyCalls (openOutput existing) order)[i]? = (openOutput existing)[i]?) ∧
        ((openOutput existing).length ≤ 1000 →
          applyCalls (openOutput existing) order = res) ∧
        applyCalls (openOutput none) order = res := by
  obtain ⟨workers, hrun, hfour, hok, hsum, hag, hcov⟩ :=
    mainDownload_served parseInt transport wr res hlen hwr hsrv
  refine ⟨by decide, workers, hrun, hfour, hok, hsum, ?_⟩
  intro order existing hperm
  have hag2 : ∀ c ∈ order, Agrees 0 res c := fun c hc => hag c (hperm.mem_iff.1 hc)
  have hcov2 : ∀ i : Nat, i < res.length → ∃ c ∈ order, touches c i := by
    intro i hi
    obtain ⟨c, hc, ht⟩ := hcov i (by omega)
    exact ⟨c, hperm.mem_iff.2 hc, ht⟩
  have hall := applyCalls_rebuilds res order (openOutput existing) hag2 hcov2
  have hnew := (applyCalls_rebuilds res order (openOutput none) hag2 hcov2).2.2
    (by simp [openOutput])
  rw [hlen] at hall
  exact ⟨hall.1, hall.2.1, hall.2.2, hnew⟩

/-- Witness of the amended C3: the sample resource of 1000 bytes behind
`rangeServer`, with complete writes. -/
theorem C3_four_workers_rebuild_first_1000_bytes_witness :
    mainPartition 1000 4 = some [(0, 249), (250, 499), (500, 749), (750, 999)] ∧
    ∃ workers,
      mainDownload parseSample (rangeServer sampleResource) wrComplete 1000 4 = some workers ∧
      workers.length = 4 ∧
      (∀ w ∈ workers, w.2 = Outcome.downloaded) ∧
      (workers.map fun w => w.1.written).sum = 1000 ∧
      ∀ (order : List WriteCall) (existing : Option (List Byte)),
        List.Perm order (workers.map fun w => w.1.calls).flatten →
        (∀ i : Nat, i < 1000 →
          (applyCalls (openOutput existing) order)[i]? = sampleResource[i]?) ∧
        (∀ i : Nat, 1000 ≤ i →
          (applyCalls (openOutput existing) order)[i]? = (openOutput existing)[i]?) ∧
        ((openOutput existing).length ≤ 1000 →
          applyCalls (openOutput existing) order = sampleResource) ∧
        applyCalls (openOutput none) order = sampleResource :=
  C3_four_workers_rebuild_first_1000_bytes parseSample (rangeServer sampleResource)
    wrComplete sampleResource (by simp [sampleResource]) (fun _ _ => rfl)
    (by
      intro r hr
      simp only [List.mem_cons, List.mem_singleton, List.not_mem_nil, or_false] at hr
      rcases hr with rfl | rfl | rfl | rfl <;>
        exact ⟨_, "250", [], rfl, rfl, by decide,
          by simp [delivers, streamOf]⟩)

end Downloader
